import Mathlib

/-!
Verification development for the `recursive-file-loader` library.

The Rust sources are shallowly embedded here:
* `src/canonical_path.rs`  → `CanonicalPath`, `CanonicalPath.new`, its `BEq`/hash model
* `src/dependency_path.rs` → `getDependencyPath` (with simplified POSIX path primitives)
* `src/includes.rs`        → `Include`, `Include.replace`, `escape_backslashes`
* `src/loader.rs`          → `findIncludes` (the regex is embedded as a deterministic
                             scanner with the same matching semantics) and `getTextForPath`

Text buffers are modelled as `List Char` (the Rust code only ever slices at
regex-produced byte offsets; all offsets we reason about fall on character
boundaries, and claims quantify over such buffers, so character indices are
faithful). The file system is an explicit structure of functions, and the
recursive loader takes a fuel parameter so that potential non-termination is
observable as a `none` result.
-/

/-- Text buffers: a Rust `String` viewed as its sequence of characters. -/
abbrev Str := List Char

/-- Model of Rust `std::ops::Range<usize>` (`start..end`); `end` is a Lean keyword,
so the field is called `stop`. -/
structure NatRange where
  start : Nat
  stop : Nat
deriving DecidableEq, Repr

/-- Length of a `Range<usize>` as Rust's `ExactSizeIterator::len` computes it
(`end - start`, and `0` when `start >= end`). -/
def NatRange.len (r : NatRange) : Nat := r.stop - r.start

/-- Model of Rust `Range::is_empty` (`!(start < end)`). -/
def NatRange.isEmpty (r : NatRange) : Bool := r.stop ≤ r.start

/-- Model of `String::replace_range(start..stop, repl)`: the well-formed case
(`start ≤ stop ≤ length`), which is the only one the library exercises. -/
def replaceRange (s : Str) (start stop : Nat) (repl : Str) : Str :=
  s.take start ++ repl ++ s.drop stop

/-- Model of `std::io::ErrorKind` as the two classes `canonical_path.rs`
distinguishes: `NotFound` versus everything else. -/
inductive IOErrKind where
  | notFound
  | other
deriving DecidableEq, Repr

/-- The library's error enum from `lib.rs`. -/
inductive Error where
  | FileNotFound (path : Str)
  | CyclicDependency (pathA pathB : Str)
  | IOError (kind : IOErrKind)
deriving DecidableEq, Repr

deriving instance DecidableEq for Except

/-- Model of `CanonicalPath` from `canonical_path.rs`: the path as given
(`source`) together with its canonicalized form. -/
structure CanonicalPath where
  source : Str
  canonical : Str
deriving DecidableEq, Repr

/-- The `PartialEq` impl for `CanonicalPath`: equality solely on `canonical`. -/
instance : BEq CanonicalPath := ⟨fun a b => a.canonical == b.canonical⟩

/-- The `Hash` impl for `CanonicalPath`: only `canonical` is fed to the hasher,
modelled by applying an arbitrary hasher function to the `canonical` field. -/
def cpHash (hasher : Str → UInt64) (cp : CanonicalPath) : UInt64 :=
  hasher cp.canonical

/-- The file-system collaborator: canonicalization and file reading as supplied
by the operating environment, plus the directory test used by
`dependency_path.rs`. `canon` is keyed by the as-given path, `read` by the
canonical path (the loader reads through `CanonicalPath: AsRef<Path>`, which
yields the canonical form). -/
structure FileSys where
  canon : Str → Except IOErrKind Str
  read : Str → Except IOErrKind Str
  isDir : Str → Bool

/-- Model of `CanonicalPath::new`: canonicalize, mapping `NotFound` to
`Error::FileNotFound(source)` and any other error kind to `Error::IOError`. -/
def CanonicalPath.new (fs : FileSys) (source : Str) : Except Error CanonicalPath :=
  match fs.canon source with
  | .error .notFound => .error (.FileNotFound source)
  | .error k => .error (.IOError k)
  | .ok c => .ok ⟨source, c⟩

/-- Split a character list at every occurrence of `sep` (so that
`splitCh sep` of the empty list is `[[]]`, like Rust `str::split`). -/
def splitCh (sep : Char) : Str → List Str
  | [] => [[]]
  | c :: rest =>
    if c = sep then [] :: splitCh sep rest
    else
      match splitCh sep rest with
      | [] => [[c]]
      | h :: t => (c :: h) :: t

/-- Join a list of pieces with `sep` between consecutive pieces (Rust
`[String]::join` / `intercalate`). -/
def joinCh (sep : Char) : List Str → Str
  | [] => []
  | [l] => l
  | l :: ls => l ++ sep :: joinCh sep ls

/-- POSIX-style `Path::is_absolute`: the path starts with a separator. -/
def isAbsolute (p : Str) : Bool := p.head? = some '/'

/-- POSIX-style `Path::join` for a relative right-hand side: push `b` onto `a`
with a separator when needed. -/
def joinPath (a b : Str) : Str :=
  if a = [] then b
  else if a.getLast? = some '/' then a ++ b
  else a ++ '/' :: b

/-- POSIX-style `Path::parent`: drop the final path component; `none` for the
root and the empty path. This is a simplification of `std::path` (component
normalization such as trailing separators is not modelled); no claim depends
on these corner cases. -/
def parentPath (p : Str) : Option Str :=
  if p = [] ∨ p = ['/'] then none
  else
    let par := joinCh '/' (splitCh '/' p).dropLast
    some (if par = [] ∧ p.head? = some '/' then ['/'] else par)

/-- Model of `DependencyPath::get_dependency_path` from `dependency_path.rs`:
an absolute reference is returned unchanged, otherwise it is joined onto the
origin if the origin is a directory, and onto the origin's parent otherwise.
The `parent().unwrap()` is modelled as defaulting to the empty path. -/
def getDependencyPath (fs : FileSys) (originPath : Str) (path : Str) : Str :=
  if isAbsolute path then path
  else if fs.isDir originPath then joinPath originPath path
  else joinPath ((parentPath originPath).getD []) path

/-- Strip one trailing carriage return, as Rust `str::lines` does per line. -/
def rstripCr (l : Str) : Str :=
  if l.getLast? = some '\r' then l.dropLast else l

/-- Model of Rust `str::lines`: split on `'\n'`, drop a final empty piece
produced by a trailing newline, and strip one trailing `'\r'` per line. -/
def rustLines (s : Str) : List Str :=
  if s = [] then []
  else
    let parts := splitCh '\n' s
    let parts := if parts.getLast? = some [] then parts.dropLast else parts
    parts.map rstripCr

/-- The `enumerate`/`map` step of `Include::replace`: keep the first line,
prepend `ind` to every later line. -/
def indentTail (ind : Str) : List Str → List Str
  | [] => []
  | l :: ls => l :: ls.map (fun x => ind ++ x)

/-- The indentation branch of `Include::replace`:
`text.lines().enumerate().map(..).join("\n")`. -/
def applyIndent (ind : Str) (t : Str) : Str :=
  joinCh '\n' (indentTail ind (rustLines t))

/-- Model of the `Include` struct from `includes.rs`. -/
structure Include where
  path : Str
  backslashes : NatRange
  range : NatRange
  indentation : Option Str
deriving DecidableEq, Repr

/-- Model of the private getter `Include::indentation`: the stored capture,
filtered to `None` when it is empty. -/
def Include.indentationGet (i : Include) : Option Str :=
  i.indentation.filter (fun it => !it.isEmpty)

/-- Model of the free function `escape_backslashes` from `includes.rs`. -/
def escape_backslashes (target : Str) (backslashes : NatRange) : Str :=
  if backslashes.isEmpty then target
  else
    let numBackslachesToRemove := backslashes.len / 2
    let newEnd := backslashes.stop - numBackslachesToRemove
    replaceRange target backslashes.start newEnd []

/-- The `match self.indentation()` step of `Include::replace`. -/
def Include.postIndent (i : Include) (text : Str) : Str :=
  match i.indentationGet with
  | none => text
  | some indentation => applyIndent indentation text

/-- The text an active directive splices into the buffer: producer output after
indentation, truncated at `end_index` (one trailing `'\n'` removed, if any). -/
def Include.splicedText (i : Include) (produced : Str) : Str :=
  let text := i.postIndent produced
  let endIndex := if text.getLast? = some '\n' then text.length - 1 else text.length
  text.take endIndex

/-- The successful active branch of `Include::replace`: replace `range` by the
spliced text, then `escape_backslashes` on the (unshifted) backslash range. -/
def Include.spliceActive (i : Include) (target : Str) (produced : Str) : Str :=
  escape_backslashes (replaceRange target i.range.start i.range.stop (i.splicedText produced))
    i.backslashes

/-- Model of `Include::replace`. The producer is a thunk so that "the producer
is not invoked" is expressible as independence from the producer argument. -/
def Include.replace (i : Include) (target : Str)
    (producer : Unit → Except Error Str) : Except Error Str :=
  if i.backslashes.len % 2 = 1 then
    .ok (escape_backslashes target i.backslashes)
  else
    match producer () with
    | .error e => .error e
    | .ok text => .ok (i.spliceActive target text)

/-!
The directive scanner. `find_includes` in `loader.rs` uses the regex

  `(?m)(?P<indentation>^\s*)?(?P<backslashes>\\*)(?P<expr>\$\x7binclude(?P<indent>_indent)?\("(?P<path>[^"]*)"\)\x7d)`

over the file text. Because the character classes of adjacent sub-patterns are
pairwise disjoint (`\s`, `\\`, `$`) and `[^"]*` cannot cross a quote, the
regex's leftmost-first match at any given start position is deterministic and
equals the greedy scanner below; `captures_iter` then resumes immediately
after each match. `\s` is modelled by its ASCII members (the non-ASCII Unicode
whitespace code points are not modelled; no claim depends on them).
-/

/-- Membership in the regex class `\s` (ASCII part). -/
def isWs (c : Char) : Bool :=
  c = ' ' ∨ c = '\t' ∨ c = '\n' ∨ c = '\x0b' ∨ c = '\x0c' ∨ c = '\r'

/-- Parse `<path>")\x7d` given the text that follows the opening quote of the
directive: the path is everything up to the first quote, which must be
followed by `)` and a closing brace. Returns the path and the number of
characters consumed. -/
def parsePathTail (s : Str) : Option (Str × Nat) :=
  let path := s.takeWhile (fun c => c ≠ '"')
  match s.drop path.length with
  | '"' :: ')' :: '\x7d' :: _ => some (path, path.length + 3)
  | _ => none

/-- Parse what follows `$\x7binclude`: either `_indent("` or `("`, then the
path tail. The regex's optional `(?P<indent>_indent)?` group can only survive
backtracking when `("` follows it, and when it is skipped `\(` must match the
very next character, which yields exactly these two cases. -/
def parseAfterInclude (s : Str) : Option (Bool × Str × Nat) :=
  if s.take 9 = '_' :: 'i' :: 'n' :: 'd' :: 'e' :: 'n' :: 't' :: '(' :: '"' :: [] then
    match parsePathTail (s.drop 9) with
    | some (path, k) => some (true, path, 9 + k)
    | none => none
  else if s.take 2 = '(' :: '"' :: [] then
    match parsePathTail (s.drop 2) with
    | some (path, k) => some (false, path, 2 + k)
    | none => none
  else none

/-- Parse the whole `expr` group at the start of `s`: `$\x7binclude`, the
optional `_indent`, and `("<path>")\x7d`. Returns the `indent`-variant flag,
the raw path capture, and the length of the `expr` match. -/
def parseExpr (s : Str) : Option (Bool × Str × Nat) :=
  if s.take 9 = '$' :: '\x7b' :: 'i' :: 'n' :: 'c' :: 'l' :: 'u' :: 'd' :: 'e' :: [] then
    match parseAfterInclude (s.drop 9) with
    | some (b, path, k) => some (b, path, 9 + k)
    | none => none
  else none

/-- One regex match, with absolute positions into the scanned text. -/
structure RawInc where
  indCapture : Option Str
  indStart : Nat
  bsStart : Nat
  bsLen : Nat
  exprStart : Nat
  exprLen : Nat
  isIndent : Bool
  rawPath : Str
deriving DecidableEq, Repr

/-- Attempt the regex match at absolute position `i`, where `s` is the text
from position `i` on and `ls` says whether `i` is a line start (where the
anchored optional indentation group participates). -/
def tryMatchAt (i : Nat) (ls : Bool) (s : Str) : Option RawInc :=
  let indCapture : Option Str := if ls then some (s.takeWhile isWs) else none
  let indLen := (indCapture.getD []).length
  let s1 := s.drop indLen
  let bs := s1.takeWhile (fun c => c = '\\')
  match parseExpr (s1.drop bs.length) with
  | none => none
  | some (bIndent, path, exprLen) =>
    some { indCapture := indCapture, indStart := i, bsStart := i + indLen,
           bsLen := bs.length, exprStart := i + indLen + bs.length,
           exprLen := exprLen, isIndent := bIndent, rawPath := path }

/-- The length of text a successful match at position `i` consumes beyond `i`
(up to the end of its `expr` group). -/
def RawInc.consumed (m : RawInc) : Nat := m.exprStart + m.exprLen - m.indStart

/-- Scan the text left to right, collecting every match in order, as
`captures_iter` does: on failure advance one character, on success resume at
the end of the match. `s` is the remaining suffix, `i` its absolute position,
`ls` whether `i` is at a line start. Fuel bounds the number of steps; the
initial fuel `s.length` is enough since every step consumes a character. -/
def scanAux : Nat → Str → Bool → Nat → List RawInc
  | 0, _, _, _ => []
  | fuel + 1, s, ls, i =>
    match s with
    | [] => []
    | c :: rest =>
      match tryMatchAt i ls (c :: rest) with
      | some m =>
        m :: scanAux fuel ((c :: rest).drop m.consumed)
          (((c :: rest).take m.consumed).getLast? == some '\n') (i + m.consumed)
      | none => scanAux fuel rest (c = '\n') (i + 1)

/-- All regex matches of the directive pattern over `text`, in text order. -/
def scanText (text : Str) : List RawInc :=
  scanAux text.length text true 0

/-- Convert one match into an `Include`, as the closure in `find_includes`
does: the `expr` range, the dependency path resolved against the source path,
the backslash range, and the indentation capture kept only for the
`_indent` variant (absent capture defaulting to the empty string). -/
def rawToInclude (fs : FileSys) (sourcePath : Str) (m : RawInc) : Include :=
  { range := ⟨m.exprStart, m.exprStart + m.exprLen⟩
    path := getDependencyPath fs sourcePath m.rawPath
    backslashes := ⟨m.bsStart, m.bsStart + m.bsLen⟩
    indentation := if m.isIndent then some (m.indCapture.getD []) else none }

/-- Model of `Loader::find_includes`: all matches of one parse pass, reversed
(rightmost first), converted to `Include` records. -/
def findIncludes (fs : FileSys) (sourcePath : Str) (text : Str) : List Include :=
  ((scanText text).reverse).map (rawToInclude fs sourcePath)

/-!
The recursive loader. The `RefCell<Vec<CanonicalPath>>` resolution stack is
threaded explicitly; every function returns the result together with the stack
it leaves behind, so the missing pop on error paths is observable. A `none`
result means the fuel ran out, i.e. the modelled execution did not terminate
within `fuel` nested resolutions.
-/

/-- Result of a (possibly fuel-exhausted) loader call. -/
abbrev Res := Option (Except Error Str)

/-- Model of `stack.last().unwrap()` (defined arbitrarily on the empty stack,
which the code never reaches on this call path). -/
def lastSource (st : List CanonicalPath) : Str :=
  (st.getLast?.map CanonicalPath.source).getD []

/-- The `for include in includes` loop body of `get_text_for_path`: each
iteration performs `include.replace(&mut content, || recur(include.path))?`,
so an escaped directive never invokes the recursion, a successful active one
splices and continues, and an error aborts the loop. -/
def runIncludes (recur : List CanonicalPath → Str → Res × List CanonicalPath) :
    List Include → Str → List CanonicalPath → Res × List CanonicalPath
  | [], content, st => (some (.ok content), st)
  | inc :: rest, content, st =>
    if inc.backslashes.len % 2 = 1 then
      runIncludes recur rest (escape_backslashes content inc.backslashes) st
    else
      match recur st inc.path with
      | (some (.ok text), st') => runIncludes recur rest (inc.spliceActive content text) st'
      | (r, st') => (r, st')

/-- Model of `Loader::get_text_for_path`: construct the `CanonicalPath`; fail
with `CyclicDependency` of the innermost stack entry and the new path if the
stack already contains it; otherwise push it, read the file, process all
includes found in one parse pass, and pop the frame only on the success
path (the `?` operators return before the pop). -/
def getTextForPath (fs : FileSys) : Nat → List CanonicalPath → Str → Res × List CanonicalPath
  | 0, st, _ => (none, st)
  | fuel + 1, st, p =>
    match CanonicalPath.new fs p with
    | .error e => (some (.error e), st)
    | .ok cp =>
      if st.contains cp then
        (some (.error (.CyclicDependency (lastSource st) cp.source)), st)
      else
        let st1 := st ++ [cp]
        match fs.read cp.canonical with
        | .error k => (some (.error (.IOError k)), st1)
        | .ok content =>
          match runIncludes (fun st2 q => getTextForPath fs fuel st2 q)
              (findIncludes fs cp.canonical content) content st1 with
          | (some (.ok out), st2) => (some (.ok out), st2.dropLast)
          | (r, st2) => (r, st2)

/-- Model of `Loader::load_file_recursively` / the public entry point: a fresh
loader, hence an empty resolution stack. -/
def loadFileRecursively (fs : FileSys) (fuel : Nat) (origin : Str) : Res × List CanonicalPath :=
  getTextForPath fs fuel [] origin

/-- Proposition that position `i` is a line start of `text`: the start of the
string, or immediately after a newline (the multiline `^` of the regex). -/
def lineStartAt (text : Str) (i : Nat) : Prop :=
  i = 0 ∨ text[i - 1]? = some '\n'

/-- Count of canonical names from `L` not yet on the resolution stack; the
loader provably terminates within this many nested resolutions plus one. -/
def freshCount (L : List Str) (st : List CanonicalPath) : Nat :=
  (L.filter (fun c => !(st.any (fun e => e.canonical == c)))).length

/-- Concrete input builder: the text of a plain directive `$\x7binclude("p")\x7d`. -/
def dirPlain (p : Str) : Str :=
  '$' :: '\x7b' :: ("include(\"".toList ++ p ++ "\")".toList ++ ['\x7d'])

/-- Concrete input builder: the text of an `$\x7binclude_indent("p")\x7d` directive. -/
def dirIndent (p : Str) : Str :=
  '$' :: '\x7b' :: ("include_indent(\"".toList ++ p ++ "\")".toList ++ ['\x7d'])

/-- Concrete file system with no readable files, for parser-only inputs. -/
def fsNull : FileSys :=
  ⟨fun _ => .error .other, fun _ => .error .other, fun _ => false⟩

/-- Concrete buffer whose directive is preceded by a blank line and a tab. -/
def textC5 : Str := 'a' :: '\n' :: '\n' :: '\t' :: dirIndent ['f']

/-- The single directive `findIncludes` extracts from `textC5`. -/
def incC5 : Include :=
  { path := "/s/f".toList, backslashes := ⟨4, 4⟩, range := ⟨4, 26⟩,
    indentation := some ['\n', '\t'] }

/-- Concrete buffer whose directive is preceded by whitespace-only lines. -/
def textC9 : Str := 'b' :: '\n' :: ' ' :: '\n' :: ' ' :: dirIndent ['g']

/-- The single directive `findIncludes` extracts from `textC9`. -/
def incC9 : Include :=
  { path := "/s/g".toList, backslashes := ⟨5, 5⟩, range := ⟨5, 27⟩,
    indentation := some [' ', '\n', ' '] }

/-- Concrete file system for the cycle-detection witness: `"b"` canonicalizes
to `"B"`, nothing else exists. -/
def fsW1 : FileSys :=
  ⟨fun s => if s = ['b'] then .ok ['B'] else .error .notFound,
   fun _ => .error .other, fun _ => false⟩

/-- Concrete file system for the stack-on-error counterexample: the root
`"r"` canonicalizes to `"/R"` but reading it fails with a non-NotFound error. -/
def fsC3 : FileSys :=
  ⟨fun s => if s = ['r'] then .ok ('/' :: ['R']) else .error .notFound,
   fun _ => .error .other, fun _ => false⟩

/-!
Shape lemmas for the splicing core: a buffer containing a directive decomposes
as `A ++ backslash-run ++ expression ++ B`, and both `escape_backslashes` and
`Include.replace` act on it by segments.
-/

/-- Lemma: `replace_range` on an exactly-delimited middle segment swaps that
segment for the replacement and keeps both sides. -/
theorem replaceRange_shape (A M B R : Str) :
    replaceRange (A ++ M ++ B) A.length (A.length + M.length) R = A ++ R ++ B := by
  have h1 : (A ++ M ++ B).take A.length = A := by
    rw [List.append_assoc]; exact List.take_left A (M ++ B)
  have h2 : (A ++ M ++ B).drop (A.length + M.length) = B := by
    rw [show A.length + M.length = (A ++ M).length by simp]
    exact List.drop_left (A ++ M) B
  simp [replaceRange, h1, h2]

/-- Lemma: `escape_backslashes` on a run of `n` backslashes delimited by its
range keeps exactly `n / 2` of them (removing the other `n - n / 2`). -/
theorem escape_backslashes_shape (A R : Str) (n : Nat) :
    escape_backslashes (A ++ List.replicate n '\\' ++ R) ⟨A.length, A.length + n⟩
      = A ++ List.replicate (n / 2) '\\' ++ R := by
  rcases Nat.eq_zero_or_pos n with hn | hn
  · subst hn
    simp [escape_backslashes, NatRange.isEmpty]
  · rw [escape_backslashes, if_neg (by simp only [NatRange.isEmpty, decide_eq_true_eq]; omega)]
    have harith : A.length + n - (⟨A.length, A.length + n⟩ : NatRange).len / 2
        = A.length + (n - n / 2) := by
      simp only [NatRange.len]; omega
    show replaceRange (A ++ List.replicate n '\\' ++ R) A.length
        (A.length + n - (⟨A.length, A.length + n⟩ : NatRange).len / 2) []
      = A ++ List.replicate (n / 2) '\\' ++ R
    rw [harith, replaceRange]
    have h1 : (A ++ List.replicate n '\\' ++ R).take A.length = A := by
      rw [List.append_assoc]; exact List.take_left A _
    have h2 : (A ++ List.replicate n '\\' ++ R).drop (A.length + (n - n / 2))
        = List.replicate (n / 2) '\\' ++ R := by
      rw [List.append_assoc, List.drop_append,
        List.drop_append_of_le_length (by simp only [List.length_replicate]; omega),
        List.drop_replicate]
      congr 2
      omega
    rw [h1, h2]
    simp

/-- Lemma: the escaped branch of `Include::replace` on a decomposed buffer. -/
theorem replace_escaped_shape (i : Include) (A E B : Str) (n : Nat)
    (hbs : i.backslashes = ⟨A.length, A.length + n⟩)
    (hodd : n % 2 = 1) (p : Unit → Except Error Str) :
    i.replace (A ++ List.replicate n '\\' ++ E ++ B) p
      = .ok (A ++ List.replicate (n / 2) '\\' ++ (E ++ B)) := by
  have hlen : i.backslashes.len = n := by rw [hbs]; simp [NatRange.len]
  rw [Include.replace, if_pos (by rw [hlen]; exact hodd), hbs]
  rw [show A ++ List.replicate n '\\' ++ E ++ B = A ++ List.replicate n '\\' ++ (E ++ B) by
    simp]
  rw [escape_backslashes_shape]

/-- Lemma: the active branch of `Include::replace` on a decomposed buffer:
the expression segment is replaced by the spliced text and the backslash run
is halved. -/
theorem replace_active_shape (i : Include) (A E B c : Str) (n : Nat)
    (hbs : i.backslashes = ⟨A.length, A.length + n⟩)
    (hr : i.range = ⟨A.length + n, A.length + n + E.length⟩)
    (heven : n % 2 = 0) :
    i.replace (A ++ List.replicate n '\\' ++ E ++ B) (fun _ => .ok c)
      = .ok (A ++ List.replicate (n / 2) '\\' ++ (i.splicedText c ++ B)) := by
  have hlen : i.backslashes.len = n := by rw [hbs]; simp [NatRange.len]
  rw [Include.replace, if_neg (by rw [hlen]; omega)]
  show Except.ok (i.spliceActive _ c) = _
  rw [Include.spliceActive, hbs, hr]
  have hmid : replaceRange (A ++ List.replicate n '\\' ++ E ++ B) (A.length + n)
      (A.length + n + E.length) (i.splicedText c)
      = A ++ List.replicate n '\\' ++ (i.splicedText c ++ B) := by
    have := replaceRange_shape (A ++ List.replicate n '\\') E B (i.splicedText c)
    simpa using this
  rw [hmid, escape_backslashes_shape]

/-- Lemma: the `end_index` truncation in `Include::replace` drops exactly one
trailing newline when there is one, and is the identity otherwise; in either
case the original is recovered by appending at most one `'\n'`. -/
theorem splicedText_trim (i : Include) (c : Str) :
    (¬ (i.postIndent c).getLast? = some '\n' → i.splicedText c = i.postIndent c)
    ∧ ((i.postIndent c).getLast? = some '\n' →
        i.splicedText c = (i.postIndent c).dropLast
        ∧ i.splicedText c ++ ['\n'] = i.postIndent c) := by
  constructor
  · intro h
    rw [Include.splicedText]
    simp only [if_neg h]
    exact List.take_length _
  · intro h
    rw [Include.splicedText]
    simp only [if_pos h]
    refine ⟨(List.dropLast_eq_take _).symm, ?_⟩
    rw [← List.dropLast_eq_take]
    exact List.dropLast_append_getLast? '\n' h

/-- Lemma: `escape_backslashes` leaves every prefix ending at or before the
backslash range untouched and cannot shorten the buffer below that prefix. -/
theorem escape_backslashes_frame (t : Str) (bs : NatRange) (k : Nat)
    (hk : k ≤ bs.start) (hkt : k ≤ t.length) :
    (escape_backslashes t bs).take k = t.take k ∧ k ≤ (escape_backslashes t bs).length := by
  rw [escape_backslashes]
  by_cases he : bs.isEmpty = true
  · rw [if_pos he]
    exact ⟨rfl, hkt⟩
  · rw [if_neg he]
    constructor
    · rw [replaceRange, List.append_assoc,
        List.take_append_of_le_length (by simp only [List.length_take]; omega),
        List.take_take, Nat.min_eq_left hk]
    · rw [replaceRange]
      simp only [List.length_append, List.length_take]
      omega

/-- Lemma: `replace_range` leaves every prefix ending at or before the replaced
range untouched and cannot shorten the buffer below that prefix. -/
theorem replaceRange_frame (t repl : Str) (a b k : Nat)
    (hk : k ≤ a) (hkt : k ≤ t.length) :
    (replaceRange t a b repl).take k = t.take k ∧ k ≤ (replaceRange t a b repl).length := by
  constructor
  · rw [replaceRange, List.append_assoc,
      List.take_append_of_le_length (by simp only [List.length_take]; omega),
      List.take_take, Nat.min_eq_left hk]
  · rw [replaceRange]
    simp only [List.length_append, List.length_take]
    omega

/-- Lemma: a successful `Include::replace` (either branch) preserves every
prefix of the buffer ending at or before the start of the backslash range. -/
theorem replace_frame (i : Include) (t : Str) (p : Unit → Except Error Str) (r : Str)
    (hok : i.replace t p = .ok r)
    (hwf : i.backslashes.start ≤ i.range.start ∧ i.range.start ≤ t.length)
    (k : Nat) (hk : k ≤ i.backslashes.start) :
    r.take k = t.take k ∧ k ≤ r.length := by
  have hkt : k ≤ t.length := by omega
  rw [Include.replace] at hok
  by_cases hodd : i.backslashes.len % 2 = 1
  · rw [if_pos hodd] at hok
    have hr : r = escape_backslashes t i.backslashes := by
      exact (Except.ok.injEq _ _).mp hok.symm
    rw [hr]
    exact escape_backslashes_frame t i.backslashes k hk hkt
  · rw [if_neg hodd] at hok
    cases hp : p () with
    | error e => rw [hp] at hok; cases hok
    | ok c =>
      rw [hp] at hok
      have hr : r = i.spliceActive t c := (Except.ok.injEq _ _).mp hok.symm
      rw [hr, Include.spliceActive]
      have hinner := replaceRange_frame t (i.splicedText c) i.range.start i.range.stop k
        (by omega) hkt
      have houter := escape_backslashes_frame
        (replaceRange t i.range.start i.range.stop (i.splicedText c)) i.backslashes k hk
        (by
          rw [replaceRange]
          simp only [List.length_append, List.length_take]
          omega)
      exact ⟨houter.1.trans hinner.1, houter.2⟩

/-- Lemma: `splitCh` never returns the empty list of pieces. -/
theorem splitCh_ne_nil (sep : Char) (s : Str) : splitCh sep s ≠ [] := by
  induction s with
  | nil => simp [splitCh]
  | cons c rest ih =>
    rw [splitCh]
    by_cases h : c = sep
    · simp [h]
    · rw [if_neg h]
      cases hs : splitCh sep rest with
      | nil => simp
      | cons a t => simp

/-- Lemma: no piece produced by `splitCh` contains the separator. -/
theorem splitCh_not_mem (sep : Char) (s : Str) :
    ∀ l ∈ splitCh sep s, sep ∉ l := by
  induction s with
  | nil =>
    intro l hl
    simp only [splitCh, List.mem_singleton] at hl
    subst hl
    simp
  | cons c rest ih =>
    intro l hl
    rw [splitCh] at hl
    by_cases h : c = sep
    · rw [if_pos h] at hl
      rcases List.mem_cons.mp hl with hl2 | hl2
      · subst hl2; simp
      · exact ih l hl2
    · rw [if_neg h] at hl
      cases hs : splitCh sep rest with
      | nil => exact absurd hs (splitCh_ne_nil sep rest)
      | cons a t =>
        rw [hs] at hl
        rcases List.mem_cons.mp hl with hl2 | hl2
        · subst hl2
          intro hmem
          rcases List.mem_cons.mp hmem with hh | hh
          · exact h hh.symm
          · exact ih a (by rw [hs]; exact List.mem_cons_self a t) hh
        · exact ih l (by rw [hs]; exact List.mem_cons_of_mem a hl2)

/-- Lemma: splitting a separator-free string yields that single piece. -/
theorem splitCh_of_not_mem (sep : Char) (a : Str) (h : sep ∉ a) :
    splitCh sep a = [a] := by
  induction a with
  | nil => rfl
  | cons c rest ih =>
    have hc : ¬ c = sep := fun hh => h (by rw [hh]; exact List.mem_cons_self sep rest)
    rw [splitCh, if_neg hc, ih (fun hm => h (List.mem_cons_of_mem c hm))]

/-- Lemma: splitting `a ++ sep :: s` for separator-free `a` peels off `a`. -/
theorem splitCh_append_sep (sep : Char) (a s : Str) (h : sep ∉ a) :
    splitCh sep (a ++ sep :: s) = a :: splitCh sep s := by
  induction a with
  | nil => simp [splitCh]
  | cons c rest ih =>
    have hc : ¬ c = sep := fun hh => h (by rw [hh]; exact List.mem_cons_self sep rest)
    rw [List.cons_append, splitCh, if_neg hc, ih (fun hm => h (List.mem_cons_of_mem c hm))]

/-- Lemma: `splitCh` is a left inverse of `joinCh` on nonempty lists of
separator-free pieces. -/
theorem splitCh_joinCh (sep : Char) (L : List Str) (hne : L ≠ [])
    (hfree : ∀ l ∈ L, sep ∉ l) : splitCh sep (joinCh sep L) = L := by
  induction L with
  | nil => exact absurd rfl hne
  | cons a t ih =>
    cases t with
    | nil =>
      rw [joinCh, splitCh_of_not_mem sep a (hfree a (List.mem_cons_self a []))]
    | cons b t' =>
      rw [joinCh, splitCh_append_sep sep a (joinCh sep (b :: t'))
        (hfree a (List.mem_cons_self a (b :: t')))]
      rw [ih (fun h => List.noConfusion h) (fun l hl => hfree l (List.mem_cons_of_mem a hl))]
      exact fun h => List.noConfusion h

/-- Lemma: every line computed by `rustLines` is newline-free. -/
theorem rustLines_not_mem (s : Str) : ∀ l ∈ rustLines s, '\n' ∉ l := by
  intro l hl
  rw [rustLines] at hl
  by_cases hs : s = []
  · rw [if_pos hs] at hl
    cases hl
  · rw [if_neg hs] at hl
    simp only [List.mem_map] at hl
    obtain ⟨a, ha, hal⟩ := hl
    have hmem : a ∈ splitCh '\n' s := by
      by_cases hlast : (splitCh '\n' s).getLast? = some []
      · rw [if_pos hlast] at ha
        exact (List.dropLast_sublist _).mem ha
      · rw [if_neg hlast] at ha
        exact ha
    have hfree := splitCh_not_mem '\n' s a hmem
    subst hal
    rw [rstripCr]
    by_cases hcr : a.getLast? = some '\r'
    · rw [if_pos hcr]
      intro hm
      exact hfree ((List.dropLast_sublist a).mem hm)
    · rw [if_neg hcr]
      exact hfree

/-- Lemma: `Include.replace` only depends on the producer through its value. -/
theorem replace_producer_ext (i : Include) (t : Str) (p q : Unit → Except Error Str)
    (h : p () = q ()) : i.replace t p = i.replace t q := by
  rw [Include.replace, Include.replace, h]

/-- Lemma: the lines of `applyIndent ind c` are exactly the lines of `c` with
`ind` prepended to every line but the first, whenever `ind` is newline-free. -/
theorem applyIndent_lines (ind c : Str) (hnl : '\n' ∉ ind) :
    splitCh '\n' (applyIndent ind c)
      = match rustLines c with
        | [] => [[]]
        | l :: ls => l :: ls.map (fun x => ind ++ x) := by
  rw [applyIndent]
  cases hr : rustLines c with
  | nil => simp [indentTail, joinCh, splitCh]
  | cons l ls =>
    rw [indentTail]
    refine splitCh_joinCh '\n' (l :: ls.map fun x => ind ++ x) (fun h => List.noConfusion h) ?_
    intro x hx
    rcases List.mem_cons.mp hx with h | h
    · rw [h]
      exact rustLines_not_mem c l (hr ▸ List.mem_cons_self l ls)
    · obtain ⟨y, hy, hxy⟩ := List.mem_map.mp h
      subst hxy
      intro hmem
      rcases List.mem_append.mp hmem with hm | hm
      · exact hnl hm
      · exact rustLines_not_mem c y (hr ▸ List.mem_cons_of_mem l hy) hm

/-- C2: a directive whose captured backslash run has odd length `n` never
invokes the content producer (the result is independent of it, and the loader
loop performs no recursion for it), leaves the directive expression text `E`
literally in place, and leaves exactly `n / 2` backslashes immediately before
it. -/
theorem C2_escape_check (i : Include) (A E B : Str) (n : Nat)
    (p q : Unit → Except Error Str)
    (hbs : i.backslashes = ⟨A.length, A.length + n⟩)
    (hr : i.range = ⟨A.length + n, A.length + n + E.length⟩)
    (hodd : n % 2 = 1) :
    i.replace (A ++ List.replicate n '\\' ++ E ++ B) p
      = i.replace (A ++ List.replicate n '\\' ++ E ++ B) q
    ∧ i.replace (A ++ List.replicate n '\\' ++ E ++ B) p
      = .ok (A ++ List.replicate (n / 2) '\\' ++ (E ++ B))
    ∧ (∀ (recur : List CanonicalPath → Str → Res × List CanonicalPath)
        (rest : List Include) (content : Str) (st : List CanonicalPath),
        runIncludes recur (i :: rest) content st
          = runIncludes recur rest (escape_backslashes content i.backslashes) st) := by
  refine ⟨?_, replace_escaped_shape i A E B n hbs hodd p, ?_⟩
  · rw [replace_escaped_shape i A E B n hbs hodd p,
      replace_escaped_shape i A E B n hbs hodd q]
  · intro recur rest content st
    rw [runIncludes, if_pos (by rw [hbs]; simp only [NatRange.len]; omega)]

/-- C2 witness: a single backslash suppresses expansion of a concrete
directive and is itself removed. -/
theorem C2_witness :
    ({ path := [], backslashes := ⟨1, 2⟩, range := ⟨2, 4⟩, indentation := none } : Include).replace
        ['h', '\\', '$', 'x', '!'] (fun _ => .ok ['P'])
      = .ok ['h', '$', 'x', '!'] := by
  have h := (C2_escape_check
    ({ path := [], backslashes := ⟨1, 2⟩, range := ⟨2, 4⟩, indentation := none } : Include)
    ['h'] ['$', 'x'] ['!'] 1 (fun _ => .ok ['P']) (fun _ => .error (.IOError .other))
    rfl rfl rfl).2.1
  rw [show ['h'] ++ List.replicate 1 '\\' ++ ['$', 'x'] ++ ['!']
      = ['h', '\\', '$', 'x', '!'] by decide] at h
  rw [h]
  decide

/-- C4 counterexample: for an odd run of one backslash the claim predicts that
`floor(1/2) = 0` backslashes are removed, i.e. the buffer keeps its backslash;
the code removes it (it keeps `floor(n/2)` and removes `ceil(n/2)`). -/
theorem C4_counterexample :
    ({ path := [], backslashes := ⟨0, 1⟩, range := ⟨1, 3⟩, indentation := none } : Include).replace
        ['\\', 'a', 'b'] (fun _ => .ok [])
      = .ok ['a', 'b']
    ∧ (Except.ok ['a', 'b'] : Except Error Str) ≠ .ok ['\\', 'a', 'b'] := by
  decide

/-- C4 (amended): for every directive, active or escaped, the captured run of
`n` backslashes is collapsed by removing exactly `n - n / 2` of them
(`ceil(n/2)`), so exactly `floor(n/2)` remain. -/
theorem C4_backslash_collapse (i : Include) (A E B c : Str) (n : Nat)
    (hbs : i.backslashes = ⟨A.length, A.length + n⟩)
    (hr : i.range = ⟨A.length + n, A.length + n + E.length⟩) :
    (n % 2 = 1 → i.replace (A ++ List.replicate n '\\' ++ E ++ B) (fun _ => .ok c)
        = .ok (A ++ List.replicate (n / 2) '\\' ++ (E ++ B)))
    ∧ (n % 2 = 0 → i.replace (A ++ List.replicate n '\\' ++ E ++ B) (fun _ => .ok c)
        = .ok (A ++ List.replicate (n / 2) '\\' ++ (i.splicedText c ++ B))) :=
  ⟨fun hodd => replace_escaped_shape i A E B n hbs hodd _,
   fun heven => replace_active_shape i A E B c n hbs hr heven⟩

/-- C4 witness: a run of three backslashes keeps one (`floor(3/2)`), removing
two, on a concrete escaped directive. -/
theorem C4_witness :
    ({ path := [], backslashes := ⟨0, 3⟩, range := ⟨3, 4⟩, indentation := none } : Include).replace
        ['\\', '\\', '\\', 'E', 'B'] (fun _ => .ok ['C'])
      = .ok ['\\', 'E', 'B'] := by
  have h := (C4_backslash_collapse
    ({ path := [], backslashes := ⟨0, 3⟩, range := ⟨3, 4⟩, indentation := none } : Include)
    [] ['E'] ['B'] ['C'] 3 rfl rfl).1 rfl
  rw [show ([] : Str) ++ List.replicate 3 '\\' ++ ['E'] ++ ['B']
      = ['\\', '\\', '\\', 'E', 'B'] by decide] at h
  rw [h]
  decide

/-- C5 counterexample: the directive in `textC5` is preceded on its own line
by the tab only, but the regex capture spans the preceding blank line, so the
spliced content's lines are not the produced lines each prefixed with that
whitespace: an extra empty line appears. -/
theorem C5_counterexample :
    findIncludes fsNull "/s/f0".toList textC5 = [incC5]
    ∧ incC5.indentation = some ['\n', '\t']
    ∧ splitCh '\n' (incC5.splicedText ['x', '\n', 'y']) = [['x'], [], ['\t', 'y']]
    ∧ splitCh '\n' (incC5.splicedText ['x', '\n', 'y']) ≠ [['x'], ['\t', 'y']] := by
  decide

/-- C5 (amended): provided the captured indentation string contains no newline
(which holds whenever no whitespace-only line content immediately precedes the
directive's line), every line of the substituted content except the first is
prefixed with exactly that string; the prefixing happens only when the capture
is non-empty, and a plain `include` directive (no stored capture) never
prefixes. -/
theorem C5_indentation_law (i : Include) (ind c : Str) :
    (i.indentation = some ind → ind ≠ [] → '\n' ∉ ind →
      splitCh '\n' (i.postIndent c)
        = match rustLines c with
          | [] => [[]]
          | l :: ls => l :: ls.map (fun x => ind ++ x))
    ∧ (i.indentation = some [] → i.postIndent c = c)
    ∧ (i.indentation = none → i.postIndent c = c) := by
  refine ⟨?_, ?_, ?_⟩
  · intro hsome hne hnl
    have hget : i.indentationGet = some ind := by
      rw [Include.indentationGet, hsome, Option.filter_some,
        if_pos (by simp [List.isEmpty_iff, hne])]
    rw [Include.postIndent, hget]
    exact applyIndent_lines ind c hnl
  · intro hsome
    have hget : i.indentationGet = none := by
      rw [Include.indentationGet, hsome, Option.filter_some]
      simp
    rw [Include.postIndent, hget]
  · intro hnone
    have hget : i.indentationGet = none := by
      rw [Include.indentationGet, hnone, Option.filter_none]
    rw [Include.postIndent, hget]

/-- C5 witness: a concrete `include_indent` directive with a tab capture
prefixes the second produced line and not the first. -/
theorem C5_witness :
    splitCh '\n' ((⟨[], ⟨0, 0⟩, ⟨0, 4⟩, some ['\t']⟩ : Include).postIndent ['x', '\n', 'y'])
      = [['x'], ['\t', 'y']] := by
  have h := (C5_indentation_law (⟨[], ⟨0, 0⟩, ⟨0, 4⟩, some ['\t']⟩ : Include)
    ['\t'] ['x', '\n', 'y']).1 rfl (by decide) (by decide)
  rw [h]
  decide

/-- C6: for an active directive the spliced text is the produced text (after
indentation) with exactly one trailing newline removed when it ends in one,
and unchanged otherwise, so it differs from the produced text by at most one
trailing newline; the buffer receives exactly that spliced text. -/
theorem C6_trailing_newline_trim (i : Include) (A E B c : Str) (n : Nat)
    (hbs : i.backslashes = ⟨A.length, A.length + n⟩)
    (hr : i.range = ⟨A.length + n, A.length + n + E.length⟩)
    (heven : n % 2 = 0) :
    ((i.postIndent c).getLast? = some '\n' →
        i.splicedText c = (i.postIndent c).dropLast
        ∧ i.splicedText c ++ ['\n'] = i.postIndent c)
    ∧ (¬ (i.postIndent c).getLast? = some '\n' → i.splicedText c = i.postIndent c)
    ∧ i.replace (A ++ List.replicate n '\\' ++ E ++ B) (fun _ => .ok c)
      = .ok (A ++ List.replicate (n / 2) '\\' ++ (i.splicedText c ++ B)) :=
  ⟨(splicedText_trim i c).2, (splicedText_trim i c).1,
   replace_active_shape i A E B c n hbs hr heven⟩

/-- C6 witness: produced text `"x\n"` is spliced as `"x"` into a concrete
buffer. -/
theorem C6_witness :
    (⟨[], ⟨0, 0⟩, ⟨0, 1⟩, none⟩ : Include).splicedText ['x', '\n'] = ['x']
    ∧ (⟨[], ⟨0, 0⟩, ⟨0, 1⟩, none⟩ : Include).replace ['D', 'B'] (fun _ => .ok ['x', '\n'])
      = .ok ['x', 'B'] := by
  have h := C6_trailing_newline_trim (⟨[], ⟨0, 0⟩, ⟨0, 1⟩, none⟩ : Include)
    [] ['D'] ['B'] ['x', '\n'] 0 rfl rfl rfl
  constructor
  · exact ((h.1 (by decide)).1).trans (by decide)
  · have h2 := h.2.2
    rw [show ([] : Str) ++ List.replicate 0 '\\' ++ ['D'] ++ ['B'] = ['D', 'B'] by decide] at h2
    rw [h2]
    decide

/-- C10: a successful `Include::replace`, whatever the producer and the run
parity, reproduces every character before the backslash range and after the
target range verbatim around some middle segment. -/
theorem C10_frame_effect (i : Include) (A E B r : Str) (n : Nat)
    (p : Unit → Except Error Str)
    (hbs : i.backslashes = ⟨A.length, A.length + n⟩)
    (hr : i.range = ⟨A.length + n, A.length + n + E.length⟩)
    (hok : i.replace (A ++ List.replicate n '\\' ++ E ++ B) p = .ok r) :
    ∃ mid, r = A ++ mid ++ B := by
  by_cases hodd : n % 2 = 1
  · rw [replace_escaped_shape i A E B n hbs hodd p] at hok
    refine ⟨List.replicate (n / 2) '\\' ++ E, ?_⟩
    have hv := Except.ok.inj hok
    rw [← hv]
    simp
  · have heven : n % 2 = 0 := by omega
    cases hp : p () with
    | error e =>
      rw [Include.replace, if_neg (by rw [hbs]; simp only [NatRange.len]; omega), hp] at hok
      cases hok
    | ok c =>
      rw [replace_producer_ext i _ p (fun _ => .ok c) (by rw [hp]),
        replace_active_shape i A E B c n hbs hr heven] at hok
      refine ⟨List.replicate (n / 2) '\\' ++ i.splicedText c, ?_⟩
      have hv := Except.ok.inj hok
      rw [← hv]
      simp

/-- C10 witness: the frame property at a concrete escaped directive. -/
theorem C10_witness :
    ∃ mid, ['h', '$', 'x', '!'] = ['h'] ++ mid ++ ['!'] :=
  C10_frame_effect
    ({ path := [], backslashes := ⟨1, 2⟩, range := ⟨2, 4⟩, indentation := none } : Include)
    ['h'] ['$', 'x'] ['!'] ['h', '$', 'x', '!'] 1 (fun _ => .ok [])
    rfl rfl (by decide)

/-- C7: `CanonicalPath` equality holds exactly when the canonical forms are
equal, whatever the `source` spellings; equal-canonical values hash
identically under every hasher and are interchangeable in the
stack-membership test that implements cycle detection. -/
theorem C7_path_identity (a b : CanonicalPath) :
    ((a == b) = true ↔ a.canonical = b.canonical)
    ∧ (a.canonical = b.canonical →
        (∀ hasher : Str → UInt64, cpHash hasher a = cpHash hasher b)
        ∧ ∀ st : List CanonicalPath, st.contains a = st.contains b) := by
  constructor
  · show (a.canonical == b.canonical) = true ↔ _
    exact beq_iff_eq
  · intro h
    refine ⟨fun hasher => by rw [cpHash, cpHash, h], fun st => ?_⟩
    induction st with
    | nil => rfl
    | cons e t ih =>
      have he : (a == e) = (b == e) := by
        show (a.canonical == e.canonical) = (b.canonical == e.canonical)
        rw [h]
      have he2 : (e == a) = (e == b) := by
        show (e.canonical == a.canonical) = (e.canonical == b.canonical)
        rw [h]
      simp only [List.contains_cons, he, he2, ih]

/-- C7 witness: two spellings with the same canonical form are equal and agree
on a concrete stack membership test. -/
theorem C7_witness :
    (((⟨"x/../y".toList, ['C']⟩ : CanonicalPath) == (⟨['y'], ['C']⟩ : CanonicalPath)) = true)
    ∧ [(⟨['z'], ['C']⟩ : CanonicalPath)].contains (⟨"x/../y".toList, ['C']⟩ : CanonicalPath)
      = [(⟨['z'], ['C']⟩ : CanonicalPath)].contains (⟨['y'], ['C']⟩ : CanonicalPath) :=
  ⟨(C7_path_identity ⟨"x/../y".toList, ['C']⟩ ⟨['y'], ['C']⟩).1.mpr rfl,
   ((C7_path_identity ⟨"x/../y".toList, ['C']⟩ ⟨['y'], ['C']⟩).2 rfl).2 _⟩

/-- Lemma: a successful path-tail parse consumes between 1 and all of the
remaining characters, and its path capture is the quote-free run. -/
theorem parsePathTail_bound (s path : Str) (k : Nat)
    (h : parsePathTail s = some (path, k)) :
    0 < k ∧ k ≤ s.length := by
  simp only [parsePathTail] at h
  split at h
  next rest heq =>
    cases h
    have h1 : (s.takeWhile (fun c => c ≠ '"')).length ≤ s.length :=
      (List.takeWhile_prefix _).length_le
    have h2 : (s.drop (s.takeWhile (fun c => c ≠ '"')).length).length
        = s.length - (s.takeWhile (fun c => c ≠ '"')).length := List.length_drop _ _
    rw [heq] at h2
    simp only [List.length_cons] at h2
    exact ⟨by omega, by omega⟩
  next heq => cases h

/-- Lemma: a successful parse after `$\x7binclude` consumes between 1 and all of
the remaining characters. -/
theorem parseAfterInclude_bound (s : Str) (b : Bool) (p : Str) (k : Nat)
    (h : parseAfterInclude s = some (b, p, k)) : 0 < k ∧ k ≤ s.length := by
  rw [parseAfterInclude] at h
  split_ifs at h with h1 h2
  · cases hp : parsePathTail (s.drop 9) with
    | none => rw [hp] at h; cases h
    | some v =>
      obtain ⟨pp, kk⟩ := v
      rw [hp] at h
      cases h
      have hb := parsePathTail_bound _ _ _ hp
      have h9 : (s.take 9).length = 9 := by rw [h1]; rfl
      simp only [List.length_take] at h9
      have hd : (s.drop 9).length = s.length - 9 := List.length_drop _ _
      exact ⟨by omega, by omega⟩
  · cases hp : parsePathTail (s.drop 2) with
    | none => rw [hp] at h; cases h
    | some v =>
      obtain ⟨pp, kk⟩ := v
      rw [hp] at h
      cases h
      have hb := parsePathTail_bound _ _ _ hp
      have h9 : (s.take 2).length = 2 := by rw [h2]; rfl
      simp only [List.length_take] at h9
      have hd : (s.drop 2).length = s.length - 2 := List.length_drop _ _
      exact ⟨by omega, by omega⟩

/-- Lemma: a successful `expr` parse consumes between 1 and all of the
remaining characters. -/
theorem parseExpr_bound (s : Str) (b : Bool) (p : Str) (k : Nat)
    (h : parseExpr s = some (b, p, k)) : 0 < k ∧ k ≤ s.length := by
  rw [parseExpr] at h
  split_ifs at h with h1
  · cases hp : parseAfterInclude (s.drop 9) with
    | none => rw [hp] at h; cases h
    | some v =>
      obtain ⟨bb, pp, kk⟩ := v
      rw [hp] at h
      cases h
      have hb := parseAfterInclude_bound _ _ _ _ hp
      have h9 : (s.take 9).length = 9 := by rw [h1]; rfl
      simp only [List.length_take] at h9
      have hd : (s.drop 9).length = s.length - 9 := List.length_drop _ _
      exact ⟨by omega, by omega⟩

/-- Lemma: what a successful `tryMatchAt` guarantees about the produced match:
positions are adjacent segments starting at `i`, the whole match fits in `s`,
the expression is nonempty, and the indentation capture (present exactly at a
line start) is the greedy whitespace run at `i`. -/
theorem tryMatchAt_spec (i : Nat) (ls : Bool) (s : Str) (m : RawInc)
    (h : tryMatchAt i ls s = some m) :
    m.indStart = i
    ∧ m.indCapture = (if ls then some (s.takeWhile isWs) else none)
    ∧ m.bsStart = i + (m.indCapture.getD []).length
    ∧ m.exprStart = m.bsStart + m.bsLen
    ∧ 0 < m.exprLen
    ∧ (m.indCapture.getD []).length + m.bsLen + m.exprLen ≤ s.length := by
  simp only [tryMatchAt] at h
  cases hp : parseExpr ((s.drop ((if ls then some (s.takeWhile isWs) else none).getD []).length).drop
      (((s.drop ((if ls then some (s.takeWhile isWs) else none).getD []).length).takeWhile
        (fun c => c = '\\')).length)) with
  | none => rw [hp] at h; cases h
  | some v =>
    obtain ⟨bIndent, path, exprLen⟩ := v
    rw [hp] at h
    cases h
    have hb := parseExpr_bound _ _ _ _ hp
    refine ⟨rfl, rfl, rfl, rfl, hb.1, ?_⟩
    dsimp only
    have h1 : ((if ls then some (s.takeWhile isWs) else none).getD []).length ≤ s.length := by
      cases ls with
      | true => exact (List.takeWhile_prefix _).length_le
      | false => simp
    have h2 : ((s.drop ((if ls then some (s.takeWhile isWs) else none).getD []).length).takeWhile
        (fun c => c = '\\')).length
        ≤ s.length - ((if ls then some (s.takeWhile isWs) else none).getD []).length := by
      have := (List.takeWhile_prefix (l := s.drop ((if ls then some (s.takeWhile isWs)
        else none).getD []).length) (fun c => c = '\\')).length_le
      rwa [List.length_drop] at this
    have h3 := hb.2
    rw [List.length_drop, List.length_drop] at h3
    omega

/-- Lemma: every match produced by the scanner lies at or after the scan
position, has adjacent indentation/backslash/expression segments, a nonempty
expression, fits inside the scanned suffix, and its indentation capture is
whitespace-only. -/
theorem scanAux_mem_spec (fuel : Nat) :
    ∀ (s : Str) (ls : Bool) (i : Nat) (m : RawInc), m ∈ scanAux fuel s ls i →
      i ≤ m.indStart
      ∧ m.bsStart = m.indStart + (m.indCapture.getD []).length
      ∧ m.exprStart = m.bsStart + m.bsLen
      ∧ 0 < m.exprLen
      ∧ m.exprStart + m.exprLen ≤ i + s.length
      ∧ (∀ ch ∈ m.indCapture.getD [], isWs ch = true) := by
  induction fuel with
  | zero =>
    intro s ls i m hm
    simp [scanAux] at hm
  | succ fuel ih =>
    intro s ls i m hm
    cases s with
    | nil => simp [scanAux] at hm
    | cons c rest =>
      rw [scanAux] at hm
      cases ht : tryMatchAt i ls (c :: rest) with
      | none =>
        rw [ht] at hm
        obtain ⟨ha, hb, hc, hd, he, hf⟩ := ih rest (c = '\n') (i + 1) m hm
        refine ⟨by omega, hb, hc, hd, ?_, hf⟩
        simp only [List.length_cons]
        omega
      | some m0 =>
        rw [ht] at hm
        obtain ⟨h1, h2, h3, h4, h5, h6⟩ := tryMatchAt_spec i ls (c :: rest) m0 ht
        have hcons : m0.consumed = (m0.indCapture.getD []).length + m0.bsLen + m0.exprLen := by
          rw [RawInc.consumed, h4, h3, h1]
          omega
        rcases List.mem_cons.mp hm with hm0 | hmT
        · subst hm0
          refine ⟨by omega, by rw [h3, h1], h4, h5, ?_, ?_⟩
          · rw [h4, h3]
            omega
          · intro ch hch
            rw [h2] at hch
            cases ls with
            | true =>
              simp only [if_pos] at hch
              exact List.mem_takeWhile_imp hch
            | false => simp at hch
        · obtain ⟨ha, hb, hc, hd, he, hf⟩ := ih _ _ _ m hmT
          have hlen : ((c :: rest).drop m0.consumed).length
              = (c :: rest).length - m0.consumed := List.length_drop _ _
          refine ⟨by omega, hb, hc, hd, ?_, hf⟩
          rw [hlen] at he
          omega

/-- Lemma: the scanner produces its matches in strictly increasing text order:
each match's expression ends at or before the next match's backslash run. -/
theorem scanAux_sorted (fuel : Nat) :
    ∀ (s : Str) (ls : Bool) (i : Nat),
      List.Pairwise (fun a b => a.exprStart + a.exprLen ≤ b.bsStart) (scanAux fuel s ls i) := by
  induction fuel with
  | zero =>
    intro s ls i
    simp [scanAux]
  | succ fuel ih =>
    intro s ls i
    cases s with
    | nil => simp [scanAux]
    | cons c rest =>
      rw [scanAux]
      cases ht : tryMatchAt i ls (c :: rest) with
      | none => exact ih rest _ _
      | some m0 =>
        refine List.Pairwise.cons ?_ (ih _ _ _)
        intro b hb
        obtain ⟨h1, h2, h3, h4, h5, h6⟩ := tryMatchAt_spec i ls (c :: rest) m0 ht
        obtain ⟨ha, hbb, _, _, _, _⟩ := scanAux_mem_spec fuel _ _ _ b hb
        have hend : m0.exprStart + m0.exprLen = i + m0.consumed := by
          rw [RawInc.consumed, h4, h3, h1]
          omega
        omega

/-- C8: a single parse pass yields all directives, ordered rightmost-first
(each later-processed directive's range ends at or before the earlier one's
backslash run starts), with well-formed in-bounds ranges; and a successful
substitution preserves every prefix up to its backslash start together with
its length, so the not-yet-applied leftward ranges remain valid offsets
throughout the splice sequence. -/
theorem C8_reverse_order_valid (fs : FileSys) (src text : Str) :
    List.Pairwise (fun a b => b.range.stop ≤ a.backslashes.start) (findIncludes fs src text)
    ∧ (∀ inc ∈ findIncludes fs src text,
        inc.backslashes.start ≤ inc.backslashes.stop
        ∧ inc.backslashes.stop = inc.range.start
        ∧ inc.range.start < inc.range.stop
        ∧ inc.range.stop ≤ text.length)
    ∧ (∀ (i : Include) (t : Str) (p : Unit → Except Error Str) (r : Str),
        i.replace t p = .ok r →
        i.backslashes.start ≤ i.range.start → i.range.start ≤ t.length →
        ∀ k, k ≤ i.backslashes.start → r.take k = t.take k ∧ k ≤ r.length) := by
  refine ⟨?_, ?_, ?_⟩
  · rw [findIncludes, List.pairwise_map, List.pairwise_reverse]
    exact List.Pairwise.imp (fun h => h) (scanAux_sorted text.length text true 0)
  · intro inc hinc
    rw [findIncludes] at hinc
    obtain ⟨m, hm, hfm⟩ := List.mem_map.mp hinc
    rw [List.mem_reverse] at hm
    obtain ⟨ha, hb, hc, hd, he, hf⟩ := scanAux_mem_spec text.length text true 0 m hm
    subst hfm
    refine ⟨?_, ?_, ?_, ?_⟩ <;> dsimp only [rawToInclude, scanText] <;> omega
  · intro i t p r hok h1 h2 k hk
    exact replace_frame i t p r hok ⟨h1, h2⟩ k hk

/-- C8 witness: a concrete active substitution leaves the one-character
prefix before its ranges untouched and long enough. -/
theorem C8_witness :
    (['X', 'Z', 'Y'] : Str).take 1 = (['X', '$', 'Y'] : Str).take 1
    ∧ 1 ≤ (['X', 'Z', 'Y'] : Str).length :=
  (C8_reverse_order_valid fsNull [] []).2.2
    (⟨[], ⟨1, 1⟩, ⟨1, 2⟩, none⟩ : Include) ['X', '$', 'Y'] (fun _ => .ok ['Z'])
    ['X', 'Z', 'Y'] (by decide) (by decide) (by decide) 1 (by decide)

/-- Lemma: when the scanner is run at position `i` of `text` with the correct
line-start flag, every match's indentation capture (when present) sits at a
line start and is the greedy whitespace run of the text from that position,
ending exactly where the backslash run begins. -/
theorem scanAux_linestart (text : Str) : ∀ (fuel : Nat) (s : Str) (ls : Bool) (i : Nat),
    s = text.drop i →
    (ls = true ↔ lineStartAt text i) →
    ∀ m ∈ scanAux fuel s ls i, ∀ cap, m.indCapture = some cap →
      lineStartAt text m.indStart
      ∧ cap = (text.drop m.indStart).takeWhile isWs
      ∧ m.bsStart = m.indStart + cap.length := by
  intro fuel
  induction fuel with
  | zero =>
    intro s ls i _ _ m hm
    simp [scanAux] at hm
  | succ fuel ih =>
    intro s ls i hs hls m hm
    cases s with
    | nil => simp [scanAux] at hm
    | cons c rest =>
      have hci : text[i]? = some c := by
        have h0 : (text.drop i)[0]? = text[i + 0]? := List.getElem?_drop text i 0
        rw [← hs] at h0
        simpa using h0.symm
      rw [scanAux] at hm
      cases ht : tryMatchAt i ls (c :: rest) with
      | none =>
        rw [ht] at hm
        refine ih rest (c = '\n') (i + 1) ?_ ?_ m hm
        · have : text.drop (i + 1) = (text.drop i).drop 1 := by
            rw [List.drop_drop]
          rw [this, ← hs]
          rfl
        · constructor
          · intro hdec
            simp only [decide_eq_true_eq] at hdec
            right
            rw [Nat.add_sub_cancel, hci, hdec]
          · intro hlsa
            rcases hlsa with h0 | hnl
            · omega
            · rw [Nat.add_sub_cancel, hci] at hnl
              simp only [decide_eq_true_eq]
              exact (Option.some.injEq _ _).mp hnl
      | some m0 =>
        rw [ht] at hm
        obtain ⟨h1, h2, h3, h4, h5, h6⟩ := tryMatchAt_spec i ls (c :: rest) m0 ht
        have hcons : m0.consumed = (m0.indCapture.getD []).length + m0.bsLen + m0.exprLen := by
          rw [RawInc.consumed, h4, h3, h1]
          omega
        rcases List.mem_cons.mp hm with hm0 | hmT
        · subst hm0
          intro cap hcap
          have hls_true : ls = true := by
            cases ls with
            | true => rfl
            | false =>
              rw [hcap] at h2
              simp at h2
          subst hls_true
          rw [if_pos rfl] at h2
          have hcap2 : cap = (c :: rest).takeWhile isWs :=
            (Option.some.injEq _ _).mp (hcap.symm.trans h2)
          refine ⟨h1 ▸ hls.mp rfl, ?_, ?_⟩
          · rw [h1, ← hs, hcap2]
          · rw [h3, h1, hcap, Option.getD_some]
        · have hcle : m0.consumed ≤ (c :: rest).length := by
            rw [hcons]
            exact h6
          have hcpos : 0 < m0.consumed := by
            rw [hcons]
            omega
          refine ih _ _ _ ?_ ?_ m hmT
          · have : text.drop (i + m0.consumed) = (text.drop i).drop m0.consumed := by
              rw [List.drop_drop, Nat.add_comm]
            rw [this, ← hs]
          · have htake_last : ((c :: rest).take m0.consumed).getLast?
                = (c :: rest)[m0.consumed - 1]? := by
              rw [List.getLast?_eq_getElem? _]
              have hlen : ((c :: rest).take m0.consumed).length = m0.consumed := by
                simp only [List.length_take]
                omega
              rw [hlen]
              exact List.getElem?_take_of_lt (by omega)
            have hidx : (c :: rest)[m0.consumed - 1]? = text[i + m0.consumed - 1]? := by
              have h0 : (text.drop i)[m0.consumed - 1]? = text[i + (m0.consumed - 1)]? :=
                List.getElem?_drop text i (m0.consumed - 1)
              rw [← hs] at h0
              rw [h0]
              congr 1
              omega
            constructor
            · intro hdec
              right
              rw [← hidx, ← htake_last]
              exact (beq_iff_eq).mp hdec
            · intro hlsa
              rcases hlsa with h0 | hnl
              · omega
              · rw [← hidx, ← htake_last] at hnl
                exact (beq_iff_eq).mpr hnl

/-- C9 counterexample: in `textC9` the directive's captured indentation is
`" \n "`: it contains a newline and spans the preceding whitespace-only line,
contradicting the claim that captures are horizontal whitespace from the
directive's own line only. -/
theorem C9_counterexample :
    findIncludes fsNull "/s/h0".toList textC9 = [incC9]
    ∧ incC9.indentation = some [' ', '\n', ' ']
    ∧ '\n' ∈ [' ', '\n', ' '] := by
  decide

/-- C9 (amended): every captured indentation string consists only of
characters of the regex whitespace class (which includes newlines), and it is
the greedy whitespace run of the text starting at a line-start position and
ending exactly where the backslash run begins; it may therefore span
preceding whitespace-only lines. -/
theorem C9_indentation_whitespace (fs : FileSys) (src text : Str) :
    (∀ inc ∈ findIncludes fs src text, ∀ ind, inc.indentation = some ind →
        ∀ ch ∈ ind, isWs ch = true)
    ∧ (∀ m ∈ scanText text, ∀ cap, m.indCapture = some cap →
        lineStartAt text m.indStart
        ∧ cap = (text.drop m.indStart).takeWhile isWs
        ∧ m.bsStart = m.indStart + cap.length) := by
  constructor
  · intro inc hinc ind hind ch hch
    rw [findIncludes] at hinc
    obtain ⟨m, hm, hfm⟩ := List.mem_map.mp hinc
    rw [List.mem_reverse] at hm
    obtain ⟨_, _, _, _, _, hf⟩ := scanAux_mem_spec text.length text true 0 m hm
    subst hfm
    dsimp only [rawToInclude] at hind
    by_cases hii : m.isIndent = true
    · rw [if_pos hii] at hind
      have hcd : ind = m.indCapture.getD [] := ((Option.some.injEq _ _).mp hind).symm
      rw [hcd] at hch
      exact hf ch hch
    · rw [if_neg hii] at hind
      cases hind
  · intro m hm cap hcap
    rw [scanText] at hm
    exact scanAux_linestart text text.length text true 0 rfl
      ⟨fun _ => Or.inl rfl, fun _ => rfl⟩ m hm cap hcap

/-- C9 witness: the capture of the directive in `textC9` sits at the line
start at position 2 and is the greedy whitespace run there. -/
theorem C9_witness :
    lineStartAt textC9 2
    ∧ [' ', '\n', ' '] = (textC9.drop 2).takeWhile isWs
    ∧ (5 : Nat) = 2 + ([' ', '\n', ' '] : Str).length :=
  (C9_indentation_whitespace fsNull [] textC9).2
    ⟨some [' ', '\n', ' '], 2, 5, 0, 5, 22, true, ['g']⟩ (by decide) [' ', '\n', ' '] rfl

/-- Lemma: the stack-membership test of the loader depends only on canonical
forms: `Vec::contains` compares entry canonicals with the probe's canonical. -/
theorem contains_eq_any_canonical (st : List CanonicalPath) (cp : CanonicalPath) :
    st.contains cp = st.any (fun e => e.canonical == cp.canonical) := by
  induction st with
  | nil => rfl
  | cons e t ih =>
    rw [List.contains_cons, List.any_cons, ih]
    congr 1
    show (cp.canonical == e.canonical) = (e.canonical == cp.canonical)
    by_cases h : cp.canonical = e.canonical
    · rw [h]
    · have h2 : ¬ e.canonical = cp.canonical := fun hh => h hh.symm
      simp [h, h2]

/-- Lemma: the include loop returns the stack it was given whenever it
succeeds, provided each successful recursion does the same. -/
theorem runIncludes_restore (recur : List CanonicalPath → Str → Res × List CanonicalPath)
    (hrec : ∀ st p t st', recur st p = (some (.ok t), st') → st' = st) :
    ∀ (incs : List Include) (content : Str) (st : List CanonicalPath) (t : Str)
      (st' : List CanonicalPath),
      runIncludes recur incs content st = (some (.ok t), st') → st' = st := by
  intro incs
  induction incs with
  | nil =>
    intro content st t st' h
    rw [runIncludes] at h
    injection h with h1 h2
    exact h2.symm
  | cons inc rest ih =>
    intro content st t st' h
    rw [runIncludes] at h
    by_cases hesc : inc.backslashes.len % 2 = 1
    · rw [if_pos hesc] at h
      exact ih _ _ _ _ h
    · rw [if_neg hesc] at h
      rcases hrx : recur st inc.path with ⟨r, st1⟩
      rw [hrx] at h
      match r with
      | none =>
        injection h with h1 h2
        cases h1
      | some (.error e) =>
        injection h with h1 h2
        cases h1
      | some (.ok text) =>
        have hst1 : st1 = st := hrec st inc.path text st1 hrx
        rw [← hst1]
        exact ih _ _ _ _ h

/-- Lemma: a successful `get_text_for_path` call pushes its frame and pops it
again, returning the stack it was given. -/
theorem getTextForPath_restore (fs : FileSys) :
    ∀ (fuel : Nat) (st : List CanonicalPath) (p : Str) (t : Str) (st' : List CanonicalPath),
      getTextForPath fs fuel st p = (some (.ok t), st') → st' = st := by
  intro fuel
  induction fuel with
  | zero =>
    intro st p t st' h
    rw [getTextForPath] at h
    injection h with h1 h2
    cases h1
  | succ fuel ih =>
    intro st p t st' h
    rw [getTextForPath] at h
    cases hnew : CanonicalPath.new fs p with
    | error e =>
      rw [hnew] at h
      injection h with h1 h2
      cases h1
    | ok cp =>
      rw [hnew] at h
      dsimp only at h
      by_cases hc : st.contains cp = true
      · rw [if_pos hc] at h
        injection h with h1 h2
        cases h1
      · rw [if_neg hc] at h
        cases hread : fs.read cp.canonical with
        | error k =>
          rw [hread] at h
          injection h with h1 h2
          cases h1
        | ok content =>
          rw [hread] at h
          dsimp only at h
          rcases hrun : runIncludes (fun st2 q => getTextForPath fs fuel st2 q)
              (findIncludes fs cp.canonical content) content (st ++ [cp]) with ⟨r, st2⟩
          rw [hrun] at h
          match r with
          | none =>
            injection h with h1 h2
            cases h1
          | some (.error e) =>
            injection h with h1 h2
            cases h1
          | some (.ok out) =>
            have hst2 : st2 = st ++ [cp] :=
              runIncludes_restore _ (fun st3 p3 t3 st3' hh => ih st3 p3 t3 st3' hh)
                _ _ _ _ _ hrun
            injection h with h1 h2
            rw [← h2, hst2]
            exact List.dropLast_concat

/-- Lemma: filtering with a stronger predicate yields at most as many
elements. -/
theorem filter_length_mono {α : Type} (l : List α) (P Q : α → Bool)
    (h : ∀ a, Q a = true → P a = true) :
    (l.filter Q).length ≤ (l.filter P).length := by
  induction l with
  | nil => simp
  | cons a t ih =>
    by_cases hq : Q a = true
    · rw [List.filter_cons_of_pos hq, List.filter_cons_of_pos (h a hq)]
      simpa using ih
    · rw [List.filter_cons_of_neg (by simpa using hq)]
      by_cases hp : P a = true
      · rw [List.filter_cons_of_pos hp]
        simp only [List.length_cons]
        omega
      · rw [List.filter_cons_of_neg (by simpa using hp)]
        exact ih

/-- Lemma: filtering with a strictly stronger predicate (witnessed by a
member satisfying only the weaker one) yields strictly fewer elements. -/
theorem filter_length_strict {α : Type} (l : List α) (P Q : α → Bool)
    (h : ∀ a, Q a = true → P a = true) (a0 : α) (hmem : a0 ∈ l)
    (hp : P a0 = true) (hq : Q a0 = false) :
    (l.filter Q).length < (l.filter P).length := by
  induction l with
  | nil => cases hmem
  | cons a t ih =>
    rcases List.mem_cons.mp hmem with rfl | hmem2
    · rw [List.filter_cons_of_pos hp, List.filter_cons_of_neg (by simp [hq])]
      have := filter_length_mono t P Q h
      simp only [List.length_cons]
      omega
    · by_cases hqa : Q a = true
      · rw [List.filter_cons_of_pos hqa, List.filter_cons_of_pos (h a hqa)]
        simp only [List.length_cons]
        exact Nat.succ_lt_succ (ih hmem2)
      · have hlt := ih hmem2
        rw [List.filter_cons_of_neg (by simpa using hqa)]
        by_cases hpa : P a = true
        · rw [List.filter_cons_of_pos hpa]
          simp only [List.length_cons]
          omega
        · rw [List.filter_cons_of_neg (by simpa using hpa)]
          exact hlt

/-- Lemma: pushing a fresh frame whose canonical name is in `L` strictly
decreases the count of canonical names not yet on the stack. -/
theorem freshCount_push (L : List Str) (st : List CanonicalPath) (cp : CanonicalPath)
    (hmem : cp.canonical ∈ L) (hfresh : ¬ st.contains cp = true) :
    freshCount L (st ++ [cp]) < freshCount L st := by
  rw [freshCount, freshCount]
  refine filter_length_strict L _ _ ?_ cp.canonical hmem ?_ ?_
  · intro c hc
    simp only [Bool.not_eq_true', List.any_append, List.any_cons, List.any_nil,
      Bool.or_eq_false_iff] at hc ⊢
    exact hc.1
  · rw [contains_eq_any_canonical] at hfresh
    simp only [Bool.not_eq_true] at hfresh
    simp only [Bool.not_eq_true']
    exact hfresh
  · simp [List.any_append]

/-- Lemma: the include loop never exhausts fuel when every recursion from a
good stack neither exhausts fuel nor (on success) changes the stack, and
goodness is stack-determined. -/
theorem runIncludes_total (recur : List CanonicalPath → Str → Res × List CanonicalPath)
    (good : List CanonicalPath → Prop)
    (hrec_total : ∀ st p, good st → (recur st p).1 ≠ none)
    (hrec_restore : ∀ st p t st', recur st p = (some (.ok t), st') → st' = st) :
    ∀ (incs : List Include) (content : Str) (st : List CanonicalPath),
      good st → (runIncludes recur incs content st).1 ≠ none := by
  intro incs
  induction incs with
  | nil =>
    intro content st hg
    rw [runIncludes]
    simp
  | cons inc rest ih =>
    intro content st hg
    rw [runIncludes]
    by_cases hesc : inc.backslashes.len % 2 = 1
    · rw [if_pos hesc]
      exact ih _ _ hg
    · rw [if_neg hesc]
      rcases hrx : recur st inc.path with ⟨r, st1⟩
      have hr := hrec_total st inc.path hg
      rw [hrx] at hr
      match r with
      | none => exact absurd rfl hr
      | some (.error e) => simp
      | some (.ok text) =>
        have hst1 : st1 = st := hrec_restore st inc.path text st1 hrx
        rw [hst1]
        exact ih _ _ hg

/-- Lemma: with fuel exceeding the number of canonical names not yet on the
stack, the loader never exhausts its fuel: cycle detection cuts off every
repeated file, so recursion depth is bounded and no infinite recursion
occurs. -/
theorem getTextForPath_total (fs : FileSys) (L : List Str)
    (hfin : ∀ s c, fs.canon s = .ok c → c ∈ L) :
    ∀ (fuel : Nat) (st : List CanonicalPath) (p : Str),
      freshCount L st < fuel → (getTextForPath fs fuel st p).1 ≠ none := by
  intro fuel
  induction fuel with
  | zero =>
    intro st p hlt
    omega
  | succ fuel ih =>
    intro st p _hlt
    rw [getTextForPath]
    cases hnew : CanonicalPath.new fs p with
    | error e => simp
    | ok cp =>
      dsimp only
      by_cases hc : st.contains cp = true
      · rw [if_pos hc]
        simp
      · rw [if_neg hc]
        cases hread : fs.read cp.canonical with
        | error k => simp
        | ok content =>
          dsimp only
          have hmemL : cp.canonical ∈ L := by
            rw [CanonicalPath.new] at hnew
            cases hcanon : fs.canon p with
            | error k2 =>
              rw [hcanon] at hnew
              cases k2 <;> cases hnew
            | ok c2 =>
              rw [hcanon] at hnew
              injection hnew with hcp
              rw [← hcp]
              exact hfin p c2 hcanon
          have hfuel2 : freshCount L (st ++ [cp]) < fuel := by
            have := freshCount_push L st cp hmemL hc
            omega
          have hrt := runIncludes_total (fun st2 q => getTextForPath fs fuel st2 q)
            (fun st2 => freshCount L st2 < fuel)
            (fun st2 q hg => ih st2 q hg)
            (fun st2 q t st2' hh => getTextForPath_restore fs fuel st2 q t st2' hh)
            (findIncludes fs cp.canonical content) content (st ++ [cp]) hfuel2
          rcases hrun : runIncludes (fun st2 q => getTextForPath fs fuel st2 q)
              (findIncludes fs cp.canonical content) content (st ++ [cp]) with ⟨r, st2⟩
          rw [hrun] at hrt
          match r with
          | none => exact absurd rfl hrt
          | some (.error e) => simp
          | some (.ok out) => simp

/-- C1: if the requested path's canonical identity is already anywhere on the
resolution stack, resolution fails immediately — for every fuel, so no
recursion happens — with `CyclicDependency` carrying the innermost stack
entry's original path and the newly requested path's original form; and
resolution never recurses forever: fuel exceeding the number of canonical
names not yet on the stack is never exhausted. -/
theorem C1_cycle_detection :
    (∀ (fs : FileSys) (fuel : Nat) (st : List CanonicalPath) (p : Str) (cp : CanonicalPath),
      CanonicalPath.new fs p = .ok cp → st.contains cp = true →
      getTextForPath fs (fuel + 1) st p
        = (some (.error (.CyclicDependency (lastSource st) cp.source)), st))
    ∧ (∀ (fs : FileSys) (L : List Str), (∀ s c, fs.canon s = .ok c → c ∈ L) →
        ∀ (fuel : Nat) (st : List CanonicalPath) (p : Str),
          freshCount L st < fuel → (getTextForPath fs fuel st p).1 ≠ none) := by
  constructor
  · intro fs fuel st p cp hnew hc
    rw [getTextForPath, hnew]
    dsimp only
    rw [if_pos hc]
  · intro fs L hfin fuel st p hlt
    exact getTextForPath_total fs L hfin fuel st p hlt

/-- C1 witness: requesting `"b"` (canonical `"B"`) while a frame spelled
`"a"` with the same canonical form is on the stack fails with
`CyclicDependency("a", "b")`, both in original spelling, leaving the stack
unchanged; and a concrete loader run within the fuel bound does not exhaust
its fuel. -/
theorem C1_witness :
    getTextForPath fsW1 3 [⟨['a'], ['B']⟩] ['b']
      = (some (.error (.CyclicDependency ['a'] ['b'])), [⟨['a'], ['B']⟩])
    ∧ (getTextForPath fsW1 2 [] ['b']).1 ≠ none := by
  constructor
  · have h := C1_cycle_detection.1 fsW1 2 [⟨['a'], ['B']⟩] ['b'] ⟨['b'], ['B']⟩
      (by decide) (by decide)
    rw [h]
    decide
  · refine C1_cycle_detection.2 fsW1 [['B']] ?_ 2 [] ['b'] (by decide)
    intro s c h
    dsimp only [fsW1] at h
    split at h
    · injection h with hc
      rw [← hc]
      exact List.mem_singleton.mpr rfl
    · cases h

/-- C3 counterexample: a failing top-level resolution (the root file reads
with an I/O error) returns with the root's frame still on the stack — the
error path does not pop, so the stack is not empty after every top-level
call. -/
theorem C3_counterexample :
    getTextForPath fsC3 1 [] ['r']
      = (some (.error (.IOError .other)), [⟨['r'], ['/', 'R']⟩])
    ∧ ([⟨['r'], ['/', 'R']⟩] : List CanonicalPath) ≠ [] := by
  decide

/-- C3 (amended): the frame is popped on the success path only: a successful
resolution returns the stack it was given (hence empty before and after every
successful top-level call), while an error propagating through a frame — here
the file-read failure — returns with that frame still pushed. The leak is
unobservable through the public API because every error aborts the whole
resolution and each call uses a fresh loader. -/
theorem C3_stack_discipline :
    (∀ (fs : FileSys) (fuel : Nat) (st : List CanonicalPath) (p t : Str)
        (st' : List CanonicalPath),
        getTextForPath fs fuel st p = (some (.ok t), st') → st' = st)
    ∧ (∀ (fs : FileSys) (fuel : Nat) (st : List CanonicalPath) (p : Str)
        (cp : CanonicalPath) (k : IOErrKind),
        CanonicalPath.new fs p = .ok cp → ¬ st.contains cp = true →
        fs.read cp.canonical = .error k →
        getTextForPath fs (fuel + 1) st p = (some (.error (.IOError k)), st ++ [cp])) := by
  constructor
  · intro fs fuel st p t st' h
    exact getTextForPath_restore fs fuel st p t st' h
  · intro fs fuel st p cp k hnew hc hread
    rw [getTextForPath, hnew]
    dsimp only
    rw [if_neg hc, hread]

/-- C3 witness: the read-error case at a concrete file system, exhibiting the
unpopped frame. -/
theorem C3_witness :
    getTextForPath fsC3 1 [] ['r']
      = (some (.error (.IOError .other)), [] ++ [⟨['r'], ['/', 'R']⟩]) :=
  C3_stack_discipline.2 fsC3 0 [] ['r'] ⟨['r'], ['/', 'R']⟩ .other
    (by decide) (by decide) (by decide)
